import Mathlib

/-!
Verification development for the Hedge local data engine.

The development shallowly embeds the two source files of the repository:

* `src/util/encryption.ts` (the unnamed part): the custom symmetric codec
  built from a group byte-rotation (`loopChange`) and a cyclically repeated
  XOR keystream (`xor`).  Buffers are modelled as `List Nat` of byte values;
  JavaScript strings that only carry bytes through `Buffer.from`/`toString`
  are modelled by their UTF-8 byte lists.  The key-derivation functions
  `turnToPasswordSequence`/`turnToFlagSequence` call `sha224`/`sha256` from
  the external `js-sha256` library; following spec section 4.3 they are
  modelled abstractly: `encrypt`/`decrypt` take the derived keystream
  password and validation flag byte lists as parameters.

* `src/common/localEngine.ts`: the metadata store (`SaveModel`), the block
  storage manager (`saveImageBuffer`/`loadImageBuffer`), the buffer cache
  and the facade operations.  Disk segment files are modelled as a total
  function from segment index and byte offset to a byte, with 0 for bytes
  never written (Node buffers are zero-initialised and segment files are
  sparse-extended).  Callback-based asynchronous completion is modelled by
  the net state transformation of all chunk operations; per-file grouping
  in the source only batches the same positioned writes and reads.
-/

namespace Hedge

/-! ## Encryption codec (src/util/encryption.ts) -/

/-- Embedding of `xor(data, key)`: XOR `data` against `key` repeated
cyclically.  When `key` is empty the JavaScript source XORs against
`undefined`, which coerces to 0 and leaves the byte unchanged; `getD _ 0`
gives the same behaviour. -/
def xor (data key : List Nat) : List Nat :=
  (List.range data.length).map fun i => data.getD i 0 ^^^ key.getD (i % key.length) 0

/-- Embedding of `loopChange(arr, groupSize, step)`: rotate every
`groupSize`-byte group of `arr` to the right by `step` (a trailing group may
be shorter).  The source normalises `goal = i - step` into the group
`[head, tail)` by repeatedly adding/subtracting the group size, which is
exactly `head + (i - step - head) emod (tail - head)`. -/
def loopChange (arr : List Nat) (groupSize : Nat) (step : Int) : List Nat :=
  (List.range arr.length).map fun i =>
    let head := i / groupSize * groupSize
    let tail := min (head + groupSize) arr.length
    let goal : Int := (head : Int) + (((i : Int) - step - (head : Int)) % ((tail : Int) - (head : Int)))
    arr.getD goal.toNat 0

/-- UTF-8 bytes of the literal marker string `DATA:`. -/
def dataMark : List Nat := [68, 65, 84, 65, 58]

/-- UTF-8 bytes of the separator `:`. -/
def colonByte : List Nat := [58]

/-- Embedding of `encrypt(key, json)` at the byte level.  `passwd` and
`flag` are the key material derived from `key` by the external hash
library, and `doc` is the UTF-8 byte list of `JSON.stringify(json)`.  The
plaintext envelope is `DATA:` ++ flag ++ `:` ++ doc, rotated by groups of 8
with step 1 and then XORed against the repeating keystream. -/
def encrypt (passwd flag doc : List Nat) : List Nat :=
  xor (loopChange (dataMark ++ flag ++ colonByte ++ doc) 8 1) passwd

/-- Embedding of `decrypt(key, buf)` at the byte level: XOR against the
repeating keystream, undo the group rotation, and demand the exact
`DATA:` ++ flag ++ `:` marker for the supplied key material; on success the
remaining bytes (the serialized document handed to `JSON.parse`) are
returned, otherwise `none` (the source returns `null`).  Comparing the
decoded string against the ASCII marker in the source is equivalent to
comparing the corresponding byte lists. -/
def decrypt (passwd flag buf : List Nat) : Option (List Nat) :=
  let dataB := loopChange (xor buf passwd) 8 (-1)
  let pre := dataMark ++ flag ++ colonByte
  if pre.length ≤ dataB.length ∧ dataB.take pre.length = pre then
    some (dataB.drop pre.length)
  else
    none

/-- Modelled from the spec: `encryptBuffer` from `../util/encryption` is
imported by the engine but absent from the sources; spec section 4.3 says
payload encode applies only the repeating-keystream XOR to the raw bytes
(no envelope, no rotation). -/
def encryptBuffer (passwd buf : List Nat) : List Nat := xor buf passwd

/-- Modelled from the spec: `decryptBuffer` from `../util/encryption` is
imported by the engine but absent from the sources; spec section 4.3 says
payload decode applies only the repeating-keystream XOR to the raw bytes. -/
def decryptBuffer (passwd buf : List Nat) : List Nat := xor buf passwd

/-! ## Block storage manager (src/common/localEngine.ts lines 13-18, 316-378) -/

/-- `BLOCK_SIZE = 1024 * 64` (64 KB). -/
def BLOCK_SIZE : Nat := 1024 * 64

/-- `BLOCK_IN_FILE = 1024` blocks per segment file. -/
def BLOCK_IN_FILE : Nat := 1024

/-- A disk: segment-file index (`FILE_NAME` is injective in the index)
and byte offset to byte value; bytes never written read as 0. -/
def Disk : Type := Nat → Nat → Nat

/-- A storage folder with no segment data written yet. -/
def emptyDisk : Disk := fun _ _ => 0

/-- Write `bytes` into the linear byte space `buf` at offset `off`. -/
def overlay (buf : Nat → Nat) (off : Nat) (bytes : List Nat) : Nat → Nat :=
  fun p => if off ≤ p ∧ p < off + bytes.length then bytes.getD (p - off) 0 else buf p

/-- Positioned write of `bytes` at `off` in segment file `fidx`. -/
def writeBytesD (d : Disk) (fidx off : Nat) (bytes : List Nat) : Disk :=
  fun f => if f = fidx then overlay (d fidx) off bytes else d f

/-- The chunk length used by both `saveImageBuffer` and `loadImageBuffer`:
`(i === n - 1) ? len % BLOCK_SIZE : BLOCK_SIZE`. -/
def chunkSizeOf (len n i : Nat) : Nat :=
  if i = n - 1 then len % BLOCK_SIZE else BLOCK_SIZE

/-- Bytes of chunk `i` of the payload: the source writes from `buffer` at
byte offset `i * BLOCK_SIZE` with length `chunkSizeOf`. -/
def chunkOf (buffer : List Nat) (n i : Nat) : List Nat :=
  (buffer.drop (i * BLOCK_SIZE)).take (chunkSizeOf buffer.length n i)

/-- The write loop of `saveImageBuffer`: chunk `i` goes to segment file
`blocks[i] / BLOCK_IN_FILE` at byte offset
`(blocks[i] % BLOCK_IN_FILE) * BLOCK_SIZE`.  The source groups chunks by
file name before issuing the writes; the resulting disk state is that of
the individual positioned writes. -/
def writeChunks (buffer : List Nat) (n : Nat) : List Nat → Nat → Disk → Disk
  | [], _, d => d
  | b :: bs, i, d =>
      writeChunks buffer n bs (i + 1)
        (writeBytesD d (b / BLOCK_IN_FILE) ((b % BLOCK_IN_FILE) * BLOCK_SIZE) (chunkOf buffer n i))

/-- The allocation loop of `saveImageBuffer`: call the `nextBlockIndex`
callback once per chunk, in order, threading the allocator state. -/
def allocBlocks {σ : Type} (alloc : σ → Nat × σ) : Nat → σ → List Nat × σ
  | 0, s => ([], s)
  | n + 1, s =>
      let r := alloc s
      let rest := allocBlocks alloc n r.2
      (r.1 :: rest.1, rest.2)

/-- Embedding of `saveImageBuffer(folder, buffer, nextBlockIndex, callback)`:
`blockNum = floor(byteLength / BLOCK_SIZE) + 1` chunks are allocated and
written; the callback receives the allocated block index list, returned
here together with the new disk and allocator state. -/
def saveImageBuffer {σ : Type} (d : Disk) (buffer : List Nat) (alloc : σ → Nat × σ) (s : σ) :
    Disk × List Nat × σ :=
  let blockNum := buffer.length / BLOCK_SIZE + 1
  let r := allocBlocks alloc blockNum s
  (writeChunks buffer blockNum r.1 0 d, r.1, r.2)

/-- Positioned read of `len` bytes at `off` in segment file `fidx`. -/
def readChunk (d : Disk) (fidx off len : Nat) : List Nat :=
  (List.range len).map fun j => d fidx (off + j)

/-- The read loop of `loadImageBuffer`: chunk `i` is read from segment file
`blocks[i] / BLOCK_IN_FILE` at byte offset
`(blocks[i] % BLOCK_IN_FILE) * BLOCK_SIZE` with length `chunkSizeOf size n i`,
and copied into the output buffer at offset `i * BLOCK_SIZE`. -/
def readChunks (d : Disk) (size n : Nat) : List Nat → Nat → (Nat → Nat) → (Nat → Nat)
  | [], _, buf => buf
  | b :: bs, i, buf =>
      readChunks d size n bs (i + 1)
        (overlay buf (i * BLOCK_SIZE)
          (readChunk d (b / BLOCK_IN_FILE) ((b % BLOCK_IN_FILE) * BLOCK_SIZE)
            (chunkSizeOf size n i)))

/-- Embedding of `loadImageBuffer(folder, blocks, size, callback)`: the
output buffer is allocated with `size` zero bytes and filled chunk by
chunk. -/
def loadImageBuffer (d : Disk) (blocks : List Nat) (size : Nat) : List Nat :=
  (List.range size).map (readChunks d size blocks.length blocks 0 fun _ => 0)

/-! ## Metadata store data model (src/common/localEngine.ts lines 245-294) -/

/-- The three payload variants (`ImageSpecification`). -/
inductive ImageSpecification where
  | Thumbnail : ImageSpecification
  | Exhibition : ImageSpecification
  | Origin : ImageSpecification
  deriving DecidableEq

/-- One block-map record: ordered block index list and total byte length.
The `blocks` field is optional to mirror the `if(!blocks)` falsiness check
in `loadImageURL` (an empty JavaScript array is truthy, so only an absent
field is falsy). -/
structure BlockRecord where
  blocks : Option (List Nat)
  size : Nat
  deriving DecidableEq

/-- The block map: image id to variant to record; absent keys are `none`. -/
def BlockMap : Type := Nat → Option (ImageSpecification → Option BlockRecord)

/-- The untyped config object: key to optional value. -/
def Config : Type := String → Option String

/-- A sub-item (image): id (absent or 0 is falsy in JavaScript) and tags. -/
structure Image where
  id : Option Nat
  subTags : List String
  deriving DecidableEq

/-- An entry (illustration): id, entry-level tags, ordered sub-items. -/
structure Illustration where
  id : Option Nat
  tags : List String
  images : List Image
  deriving DecidableEq

/-- Embedding of `SaveModel`: the whole in-memory metadata state. -/
structure SaveModel where
  nextIllustrationId : Nat
  nextImageId : Nat
  nextBlockIndex : Nat
  unusedBlocks : List Nat
  tags : List String
  illustrations : List Illustration
  blocks : BlockMap
  config : Config

/-- The state initialised by `load()` when no persisted document exists
(lines 208-215): id counters start at 1, block index at 0, collections
empty. -/
def freshModel : SaveModel where
  nextIllustrationId := 1
  nextImageId := 1
  nextBlockIndex := 0
  unusedBlocks := []
  tags := []
  illustrations := []
  blocks := fun _ => none
  config := fun _ => none

/-- Embedding of `SaveModel.stepToNextBlockIndex` (lines 263-268): take the
first free-list element if any (`unusedBlocks.splice(0, 1)[0]`), otherwise
return and advance the monotonic counter. -/
def stepToNextBlockIndex (m : SaveModel) : Nat × SaveModel :=
  match m.unusedBlocks with
  | u :: us => (u, { m with unusedBlocks := us })
  | [] => (m.nextBlockIndex, { m with nextBlockIndex := m.nextBlockIndex + 1 })

/-- Modelled from the spec: `Sets.put` from `../util/collection` is absent
from the sources; spec section 3 says the global tag set enforces
uniqueness, so `put` appends the tag only when it is not yet present. -/
def setsPut (s : List String) (t : String) : List String :=
  if t ∈ s then s else s ++ [t]

/-- The tag-rebuild loop of `load()` (lines 186-196): fold every entry-level
tag and then every sub-item-level tag into the fresh tag set. -/
def collectTags (ills : List Illustration) : List String :=
  ills.foldl
    (fun acc il =>
      (il.images.foldl (fun a im => im.subTags.foldl setsPut a)
        (il.tags.foldl setsPut acc)))
    []

/-- The decoded persisted document (the object passed to `encrypt` in
`save()` and read back field by field in `load()`). -/
structure SaveData where
  version : String
  nextIllustrationId : Nat
  nextImageId : Nat
  nextBlockIndex : Nat
  illustrations : List Illustration
  blocks : BlockMap
  unusedBlocks : List Nat
  config : Option Config

/-- Embedding of the existing-file branch of `load()` (lines 172-199):
`data` is the result of `decrypt` (`none` models `null`).  On `null` the
method returns `false` without touching the state; otherwise every field is
replaced (`config` only when present in the document) and the tag set is
rebuilt. -/
def loadExisting (data : Option SaveData) (m : SaveModel) : Bool × SaveModel :=
  match data with
  | none => (false, m)
  | some d =>
      (true,
        { m with
          illustrations := d.illustrations
          nextIllustrationId := d.nextIllustrationId
          nextImageId := d.nextImageId
          nextBlockIndex := d.nextBlockIndex
          blocks := d.blocks
          unusedBlocks := d.unusedBlocks
          config := match d.config with | some c => c | none => m.config
          tags := collectTags d.illustrations })

/-! ## createIllustration (lines 33-54) -/

/-- JavaScript falsiness of an id: `!illust.id` is true for an absent id
and for the number 0. -/
def isFalsyId : Option Nat → Bool
  | none => true
  | some n => n == 0

/-- The image-id assignment loop of `createIllustration` (lines 38-42):
every image whose id is falsy receives `stepToNextImageId()`. -/
def assignImages (m : SaveModel) : List Image → List Image × SaveModel
  | [] => ([], m)
  | im :: rest =>
      let im1 := if isFalsyId im.id then { im with id := some m.nextImageId } else im
      let m1 := if isFalsyId im.id then { m with nextImageId := m.nextImageId + 1 } else m
      let r := assignImages m1 rest
      (im1 :: r.1, r.2)

/-- One iteration of the `createIllustration` loop (lines 34-52): assign a
fresh id when the entry id is falsy, assign image ids, append the entry,
then fold the entry tags and all sub-item tags into the tag set. -/
def createOne (m : SaveModel) (il : Illustration) : SaveModel × Illustration :=
  let il1 := if isFalsyId il.id then { il with id := some m.nextIllustrationId } else il
  let m1 := if isFalsyId il.id then { m with nextIllustrationId := m.nextIllustrationId + 1 } else m
  let r := assignImages m1 il1.images
  let il2 := { il1 with images := r.1 }
  let m2 := { r.2 with illustrations := r.2.illustrations ++ [il2] }
  let m3 := { m2 with tags := il2.tags.foldl setsPut m2.tags }
  let m4 := { m3 with
      tags := il2.images.foldl (fun acc im => im.subTags.foldl setsPut acc) m3.tags }
  (m4, il2)

/-- Embedding of `createIllustration(illustrations)`: process the list in
order, returning the final state and the (mutated) entries. -/
def createIllustration (m : SaveModel) : List Illustration → SaveModel × List Illustration
  | [] => (m, [])
  | il :: rest =>
      let r := createOne m il
      let r2 := createIllustration r.1 rest
      (r2.1, r.2 :: r2.2)

/-! ## Buffer cache and loadImageURL (lines 126-151, 271-294) -/

/-- The buffer cache: variant and image id to cached decoded payload.  The
cached value is modelled by the decrypted payload bytes (the source stores
the equivalent base64 data URL string). -/
def Cache : Type := ImageSpecification → Nat → Option (List Nat)

/-- A cache with no entries (the `BufferCache` constructor). -/
def emptyCache : Cache := fun _ _ => none

/-- `BufferCache.set(specification, id, obj)`. -/
def cacheSet (c : Cache) (s : ImageSpecification) (id : Nat) (v : List Nat) : Cache :=
  fun s1 id1 => if s1 = s ∧ id1 = id then some v else c s1 id1

/-- `BufferCache.remove(id)`: drop the key `id` from all three variant
maps. -/
def cacheRemove (c : Cache) (id : Nat) : Cache :=
  fun s1 id1 => if id1 = id then none else c s1 id1

/-- The observable outcome of `loadImageURL`: either the callback is
invoked (with `null` modelled as `none`) or a JavaScript exception escapes. -/
inductive LoadResult where
  | threw : LoadResult
  | callbacked : Option (List Nat) → LoadResult
  deriving DecidableEq

/-- Line 127: `specification === Origin ? Origin : Exhibition`. -/
def specOrDefault : Option ImageSpecification → ImageSpecification
  | some ImageSpecification.Origin => ImageSpecification.Origin
  | _ => ImageSpecification.Exhibition

/-- Embedding of `loadImageURL(imageId, specification, callback)`:
check the cache; on miss, a falsy `blocks[imageId]` yields `callback(null)`;
otherwise the source destructures `blocks[imageId][spec]`, which throws a
`TypeError` when that variant entry is `undefined` (modelled as
`LoadResult.threw`); a record with an absent `blocks` field yields
`callback(null)`; otherwise the payload is read, decrypted, cached and
delivered. -/
def loadImageURL (d : Disk) (passwd : List Nat) (m : SaveModel) (c : Cache)
    (imageId : Nat) (specification : Option ImageSpecification) : LoadResult × Cache :=
  let spec := specOrDefault specification
  match c spec imageId with
  | some v => (LoadResult.callbacked (some v), c)
  | none =>
      match m.blocks imageId with
      | none => (LoadResult.callbacked none, c)
      | some vm =>
          match vm spec with
          | none => (LoadResult.threw, c)
          | some rec1 =>
              match rec1.blocks with
              | none => (LoadResult.callbacked none, c)
              | some bl =>
                  let v := decryptBuffer passwd (loadImageBuffer d bl rec1.size)
                  (LoadResult.callbacked (some v), cacheSet c spec imageId v)

/-! ## deleteIllustration (lines 77-91) -/

/-- Line 80: `typeof ii === "number" ? ii : ii.id`. -/
def idOf : Sum Illustration Nat → Option Nat
  | Sum.inr n => some n
  | Sum.inl il => il.id

/-- One iteration of the `deleteIllustration` loop: find the entry whose id
matches, remove it, bump the deletion count, call
`imageURLCache.remove(id)` (with the entry id, not the sub-item ids) and
set `blocks[id] = undefined`.  Nothing is pushed onto `unusedBlocks`; the
source carries a TODO acknowledging the missing reclamation. -/
def deleteOne (st : SaveModel × Cache × Nat) (ii : Sum Illustration Nat) :
    SaveModel × Cache × Nat :=
  let m := st.1
  let c := st.2.1
  let dn := st.2.2
  let id := idOf ii
  match m.illustrations.findIdx? (fun t => t.id == id) with
  | none => (m, c, dn)
  | some index =>
      ({ m with
          illustrations := m.illustrations.eraseIdx index
          blocks := fun k => if some k == id then none else m.blocks k },
        (match id with
          | some i => cacheRemove c i
          | none => c),
        dn + 1)

/-- Embedding of `deleteIllustration(illustrations)`: fold the delete step
over the argument list, returning the state, the cache and the deletion
count. -/
def deleteIllustration (m : SaveModel) (c : Cache) (items : List (Sum Illustration Nat)) :
    SaveModel × Cache × Nat :=
  items.foldl deleteOne (m, c, 0)

/-! ## Concrete fixtures used by the evaluation theorems -/

/-- A well-formed keystream password: 56 hexadecimal ASCII bytes, all `0`. -/
def p1c : List Nat := List.replicate 56 48

/-- The same keystream password with byte 20 changed to `1`. -/
def p2c : List Nat := (List.replicate 56 48).set 20 49

/-- A well-formed validation flag: 64 hexadecimal ASCII bytes, all `0`. -/
def f1c : List Nat := List.replicate 64 48

/-- The same validation flag with byte 14 changed to `1`. -/
def f2c : List Nat := (List.replicate 64 48).set 14 49

/-- A one-byte serialized document: the JSON text `1`. -/
def dC : List Nat := [49]

/-- Variant map of a payload stored in block indices 5 and 6. -/
def vm56 : ImageSpecification → Option BlockRecord := fun s =>
  if s = ImageSpecification.Origin then some { blocks := some [5, 6], size := 100000 } else none

/-- A state holding illustration 1 with sub-item image 2 whose origin
payload occupies block indices 5 and 6; the next block index is 7. -/
def model4 : SaveModel :=
  { freshModel with
    nextBlockIndex := 7
    illustrations := [{ id := some 1, tags := [], images := [{ id := some 2, subTags := [] }] }]
    blocks := fun k => if k = 2 then some vm56 else none }

/-- A cache holding the decoded origin payload of image 2. -/
def cache8 : Cache :=
  fun s id => if s = ImageSpecification.Origin ∧ id = 2 then some [9] else none

/-- A state whose block map has a record for image 1 under the origin
variant only. -/
def model6 : SaveModel :=
  { freshModel with
    blocks := fun k =>
      if k = 1 then
        some (fun s =>
          if s = ImageSpecification.Origin then some { blocks := some [5], size := 3 } else none)
      else none }

/-- A concrete decoded document, for instantiating `loadExisting`. -/
def sampleDoc : SaveData where
  version := "v0.2.0"
  nextIllustrationId := 1
  nextImageId := 1
  nextBlockIndex := 0
  illustrations := []
  blocks := fun _ => none
  unusedBlocks := []
  config := none

/-! ## List helper lemmas -/

theorem rangeMap_getD (f : Nat → Nat) (n i : Nat) :
    ((List.range n).map f).getD i 0 = if i < n then f i else 0 := by
  rcases Nat.lt_or_ge i n with h | h
  · rw [List.getD_eq_getElem?_getD, List.getElem?_map, List.getElem?_range h]
    simp [h]
  · have hnone : (List.range n)[i]? = none := by
      rw [List.getElem?_eq_none]
      simpa using h
    rw [List.getD_eq_getElem?_getD, List.getElem?_map, hnone]
    simp [Nat.not_lt.mpr h]

/-! ## Codec lemmas -/

theorem xor_length (data key : List Nat) : (xor data key).length = data.length := by
  simp [xor]

theorem xor_getD (data key : List Nat) (i : Nat) :
    (xor data key).getD i 0 =
      if i < data.length then data.getD i 0 ^^^ key.getD (i % key.length) 0 else 0 := by
  simp only [xor]
  rw [rangeMap_getD]

/-- XOR against a repeated keystream is an involution. -/
theorem xor_xor (a k : List Nat) : xor (xor a k) k = a := by
  apply List.ext_getElem
  · simp [xor_length]
  intro i h1 h2
  rw [← List.getD_eq_getElem (xor (xor a k) k) 0 h1, ← List.getD_eq_getElem a 0 h2]
  have h3 : i < (xor a k).length := by rw [xor_length]; exact h2
  calc (xor (xor a k) k).getD i 0
      = (xor a k).getD i 0 ^^^ k.getD (i % k.length) 0 := by rw [xor_getD, if_pos h3]
    _ = a.getD i 0 ^^^ k.getD (i % k.length) 0 ^^^ k.getD (i % k.length) 0 := by
        rw [xor_getD, if_pos h2]
    _ = a.getD i 0 := Nat.xor_cancel_right _ _

theorem loopChange_length (arr : List Nat) (gs : Nat) (st : Int) :
    (loopChange arr gs st).length = arr.length := by
  simp [loopChange]

theorem loopChange_getD (arr : List Nat) (gs : Nat) (st : Int) (i : Nat) (h : i < arr.length) :
    (loopChange arr gs st).getD i 0 =
      arr.getD (((i / gs * gs : Nat) : Int) +
        (((i : Int) - st - ((i / gs * gs : Nat) : Int)) %
          (((min (i / gs * gs + gs) arr.length : Nat) : Int) - ((i / gs * gs : Nat) : Int)))).toNat 0 := by
  simp only [loopChange]
  rw [rangeMap_getD, if_pos h]

theorem intEmodSub (x s g : Int) : (x % g - s) % g = (x - s) % g := by
  conv_lhs => rw [Int.sub_emod]
  rw [Int.emod_emod_of_dvd x dvd_rfl, ← Int.sub_emod]

theorem groupDiv (gs i j : Nat) (hgs : 0 < gs) (h1 : i / gs * gs ≤ j)
    (h2 : j < i / gs * gs + gs) : j / gs = i / gs := by
  have hj2 : gs * (i / gs) + (j - i / gs * gs) = j := by
    rw [Nat.mul_comm]
    omega
  have key : (gs * (i / gs) + (j - i / gs * gs)) / gs = i / gs + (j - i / gs * gs) / gs :=
    Nat.mul_add_div hgs _ _
  have hz : (j - i / gs * gs) / gs = 0 := Nat.div_eq_of_lt (by omega)
  rw [← hj2, key, hz]
  omega

/-- A group rotation by `step` followed by one by `-step` is the identity. -/
theorem loopChange_loopChange (arr : List Nat) (gs : Nat) (hgs : 0 < gs) (st : Int) :
    loopChange (loopChange arr gs st) gs (-st) = arr := by
  apply List.ext_getElem
  · simp [loopChange_length]
  intro i h1 h2
  rw [← List.getD_eq_getElem _ 0 h1, ← List.getD_eq_getElem arr 0 h2]
  have hlen : (loopChange arr gs st).length = arr.length := loopChange_length arr gs st
  have hi : i < (loopChange arr gs st).length := by rw [hlen]; exact h2
  rw [loopChange_getD _ gs (-st) i hi, hlen]
  have hd1 : i / gs * gs ≤ i := Nat.div_mul_le_self i gs
  have hmod : i % gs < gs := Nat.mod_lt i hgs
  have hdm := Nat.div_add_mod i gs
  have hd2 : i < i / gs * gs + gs := by
    have hc : gs * (i / gs) = i / gs * gs := Nat.mul_comm _ _
    omega
  have htail1 : i < min (i / gs * gs + gs) arr.length := lt_min hd2 h2
  have htail2 : min (i / gs * gs + gs) arr.length ≤ arr.length := min_le_right _ _
  set head := i / gs * gs with hhead
  set tail := min (head + gs) arr.length with htail
  have hgpos : 0 < (tail : Int) - (head : Int) := by
    have : head < tail := lt_of_le_of_lt hd1 htail1
    omega
  set R : Int := ((i : Int) - (-st) - (head : Int)) % ((tail : Int) - (head : Int)) with hR
  have hR0 : 0 ≤ R := Int.emod_nonneg _ (ne_of_gt hgpos)
  have hRg : R < (tail : Int) - (head : Int) := Int.emod_lt_of_pos _ hgpos
  obtain ⟨rn, hrn⟩ : ∃ rn : Nat, R = (rn : Int) := ⟨R.toNat, (Int.toNat_of_nonneg hR0).symm⟩
  have hcast : ((head : Int) + R).toNat = head + rn := by
    rw [hrn]
    omega
  rw [hcast]
  have hjt : head + rn < tail := by
    rw [hrn] at hRg
    omega
  have hjlen : head + rn < arr.length := lt_of_lt_of_le hjt htail2
  rw [loopChange_getD arr gs st (head + rn) hjlen]
  have hjdiv : (head + rn) / gs = i / gs := by
    apply groupDiv gs i (head + rn) hgs
    · omega
    · have : head + rn < head + gs := lt_of_lt_of_le hjt (min_le_left _ _)
      omega
  rw [hjdiv]
  have hinner : (((head : Nat) : Int) + (((head + rn : Nat) : Int) - st - ((head : Nat) : Int)) %
      (((min (head + gs) arr.length : Nat) : Int) - ((head : Nat) : Int))).toNat = i := by
    have hnum : ((head + rn : Nat) : Int) - st - (head : Int) = (rn : Int) - st := by
      push_cast
      ring
    rw [hnum]
    have hstep : ((rn : Int) - st) % ((tail : Int) - (head : Int))
        = ((i : Int) - (head : Int)) % ((tail : Int) - (head : Int)) := by
      rw [← hrn, hR]
      rw [intEmodSub]
      have : (i : Int) - (-st) - (head : Int) - st = (i : Int) - (head : Int) := by ring
      rw [this]
    have hsmall : ((i : Int) - (head : Int)) % ((tail : Int) - (head : Int))
        = (i : Int) - (head : Int) := by
      apply Int.emod_eq_of_lt
      · omega
      · omega
    rw [← htail, hstep, hsmall]
    omega
  rw [hinner]

/-- Round trip of the document codec: decoding with the key material used
for encoding recovers the serialized document. -/
theorem encrypt_decrypt (p f d : List Nat) : decrypt p f (encrypt p f d) = some d := by
  simp only [decrypt, encrypt]
  rw [xor_xor, loopChange_loopChange _ 8 (by norm_num) 1]
  have h3 : dataMark ++ f ++ colonByte ++ d = (dataMark ++ f ++ colonByte) ++ d := by
    simp [List.append_assoc]
  rw [h3, List.take_left]
  rw [if_pos ⟨by simp, rfl⟩, List.drop_left]

/-- Decoding with the same keystream password but a different validation
flag of the same length fails. -/
theorem decrypt_wrongFlag (p f f2 d : List Nat) (hlen : f2.length = f.length)
    (hne : f2 ≠ f) : decrypt p f2 (encrypt p f d) = none := by
  simp only [decrypt, encrypt]
  rw [xor_xor, loopChange_loopChange _ 8 (by norm_num) 1]
  have h3 : dataMark ++ f ++ colonByte ++ d = (dataMark ++ f ++ colonByte) ++ d := by
    simp [List.append_assoc]
  have hl : (dataMark ++ f2 ++ colonByte).length = (dataMark ++ f ++ colonByte).length := by
    simp [hlen]
  rw [h3, hl, List.take_left]
  apply if_neg
  intro hcond
  have heq := hcond.2
  rw [List.append_assoc, List.append_assoc] at heq
  have heq2 : f ++ colonByte = f2 ++ colonByte := List.append_cancel_left heq
  exact hne (List.append_cancel_right heq2).symm

/-- C1 (amended): the round trip always recovers the document; decoding
under different key material fails whenever the two keys derive the same
keystream password but validation flags of equal length that differ.  (When
the keystream passwords differ, failure is not guaranteed by the
construction: see the counterexample.) -/
theorem c1_amended (p f f2 d : List Nat) :
    decrypt p f (encrypt p f d) = some d
    ∧ (f2.length = f.length → f2 ≠ f → decrypt p f2 (encrypt p f d) = none) :=
  ⟨encrypt_decrypt p f d, fun h1 h2 => decrypt_wrongFlag p f f2 d h1 h2⟩

/-- Witness for C1 (amended) at concrete key material. -/
theorem c1_amended_witness :
    decrypt [3] [0] (encrypt [3] [0] [7, 8]) = some [7, 8]
    ∧ decrypt [3] [1] (encrypt [3] [0] [7, 8]) = none :=
  ⟨(c1_amended [3] [0] [1] [7, 8]).1,
   (c1_amended [3] [0] [1] [7, 8]).2 rfl (by decide)⟩

/-- C1 counterexample: two distinct well-formed key materials (56-byte hex
keystream passwords differing at byte 20, 64-byte hex flags differing at
byte 14) for which decoding under the second key material succeeds and even
returns the original document, contradicting the claim that decoding under
any different key fails. -/
theorem c1_counterexample :
    (p2c ≠ p1c ∨ f2c ≠ f1c)
    ∧ decrypt p2c f2c (encrypt p1c f1c dC) = some dC := by
  exact ⟨Or.inl (by decide), by decide⟩

/-- C10: document encryption is deterministic and injective in the
document for fixed key material, so ciphertext equality holds exactly for
document equality. -/
theorem c10_deterministic (p f d1 d2 : List Nat) :
    encrypt p f d1 = encrypt p f d2 ↔ d1 = d2 := by
  constructor
  · intro h
    simp only [encrypt] at h
    have h1 := congrArg (fun x => xor x p) h
    simp only [xor_xor] at h1
    have h2 := congrArg (fun x => loopChange x 8 (-1)) h1
    simp only at h2
    rw [loopChange_loopChange _ 8 (by norm_num) 1,
      loopChange_loopChange _ 8 (by norm_num) 1] at h2
    exact List.append_cancel_left h2
  · intro h
    rw [h]

/-- C5: when decryption of the persisted document fails, `load()` reports
failure and leaves every field of the in-memory state unchanged. -/
theorem c5_load_fail_closed (p f buf : List Nat) (toDoc : List Nat → SaveData)
    (m : SaveModel) (h : decrypt p f buf = none) :
    loadExisting ((decrypt p f buf).map toDoc) m = (false, m) := by
  rw [h]
  rfl

/-- Witness for C5 at a concrete undecodable document. -/
theorem c5_witness :
    decrypt [1] [2] [] = none
    ∧ loadExisting ((decrypt [1] [2] []).map fun _ => sampleDoc) freshModel
        = (false, freshModel) :=
  ⟨by decide, c5_load_fail_closed [1] [2] [] (fun _ => sampleDoc) freshModel (by decide)⟩

/-! ## Block storage lemmas -/

theorem allocBlocks_length {σ : Type} (alloc : σ → Nat × σ) (n : Nat) (s : σ) :
    ((allocBlocks alloc n s).1).length = n := by
  induction n generalizing s with
  | zero => rfl
  | succ n ih => simp [allocBlocks, ih]

theorem saveImageBuffer_blocks_length {σ : Type} (d : Disk) (buffer : List Nat)
    (alloc : σ → Nat × σ) (s : σ) :
    ((saveImageBuffer d buffer alloc s).2.1).length = buffer.length / BLOCK_SIZE + 1 := by
  simp [saveImageBuffer, allocBlocks_length]

theorem allocBlocks_fresh (n : Nat) (m : SaveModel) (h : m.unusedBlocks = []) :
    allocBlocks stepToNextBlockIndex n m
      = (List.range' m.nextBlockIndex n, { m with nextBlockIndex := m.nextBlockIndex + n }) := by
  induction n generalizing m with
  | zero => rfl
  | succ n ih =>
      simp only [allocBlocks, stepToNextBlockIndex, h]
      rw [ih { m with nextBlockIndex := m.nextBlockIndex + 1, unusedBlocks := [] } rfl]
      rw [List.range'_succ]
      have ha : m.nextBlockIndex + 1 + n = m.nextBlockIndex + (n + 1) := by omega
      simp [ha, h]

theorem overlay_apply (buf : Nat → Nat) (off : Nat) (bytes : List Nat) (p : Nat) :
    overlay buf off bytes p
      = if off ≤ p ∧ p < off + bytes.length then bytes.getD (p - off) 0 else buf p := rfl

theorem writeBytesD_apply (d : Disk) (fidx off : Nat) (bytes : List Nat) (f q : Nat) :
    writeBytesD d fidx off bytes f q
      = if f = fidx then overlay (d fidx) off bytes q else d f q := by
  by_cases h : f = fidx <;> simp [writeBytesD, h]

theorem chunkSizeOf_le (len n i : Nat) : chunkSizeOf len n i ≤ BLOCK_SIZE := by
  rw [chunkSizeOf]
  by_cases h : i = n - 1
  · rw [if_pos h]
    exact le_of_lt (Nat.mod_lt len (by norm_num [BLOCK_SIZE]))
  · rw [if_neg h]

theorem chunkOf_length (buffer : List Nat) (n i : Nat) :
    (chunkOf buffer n i).length
      = min (chunkSizeOf buffer.length n i) (buffer.length - i * BLOCK_SIZE) := by
  simp [chunkOf]

theorem chunkOf_length_le (buffer : List Nat) (n i : Nat) :
    (chunkOf buffer n i).length ≤ BLOCK_SIZE := by
  rw [chunkOf_length]
  exact le_trans (Nat.min_le_left _ _) (chunkSizeOf_le _ _ _)

theorem chunkOf_getD (buffer : List Nat) (n i k : Nat) (h : k < (chunkOf buffer n i).length) :
    (chunkOf buffer n i).getD k 0 = buffer.getD (i * BLOCK_SIZE + k) 0 := by
  have hc : k < chunkSizeOf buffer.length n i := by
    rw [chunkOf_length] at h
    omega
  rw [List.getD_eq_getElem?_getD, chunkOf, List.getElem?_take, if_pos hc, List.getElem?_drop,
    ← List.getD_eq_getElem?_getD]

theorem readChunk_length (d : Disk) (fidx off len : Nat) :
    (readChunk d fidx off len).length = len := by
  simp [readChunk]

theorem readChunk_getD (d : Disk) (fidx off len k : Nat) (h : k < len) :
    (readChunk d fidx off len).getD k 0 = d fidx (off + k) := by
  simp only [readChunk]
  rw [rangeMap_getD, if_pos h]

/-- The net effect of the chunk-write loop on indices `i, ..., i + m - 1`
(all below the segment capacity): a byte of the disk is the corresponding
chunk byte when its address falls in a written window, and is untouched
otherwise. -/
theorem writeChunks_apply (buffer : List Nat) (n : Nat) (m : Nat) :
    ∀ (i : Nat) (d : Disk) (f q : Nat), i + m ≤ BLOCK_IN_FILE →
    writeChunks buffer n (List.range' i m) i d f q =
      if f = 0 ∧ i ≤ q / BLOCK_SIZE ∧ q / BLOCK_SIZE < i + m
          ∧ q % BLOCK_SIZE < (chunkOf buffer n (q / BLOCK_SIZE)).length then
        (chunkOf buffer n (q / BLOCK_SIZE)).getD (q % BLOCK_SIZE) 0
      else d f q := by
  have hBS : BLOCK_SIZE = 65536 := rfl
  have hBF : BLOCK_IN_FILE = 1024 := rfl
  induction m with
  | zero =>
      intro i d f q him
      have h0 : List.range' i 0 = [] := rfl
      rw [h0]
      simp only [writeChunks]
      rw [hBS]
      refine (if_neg ?_).symm
      intro hC
      omega
  | succ m ih =>
      intro i d f q him
      rw [List.range'_succ]
      simp only [writeChunks]
      rw [ih (i + 1) _ f q (by omega)]
      have hfd : i / BLOCK_IN_FILE = 0 := Nat.div_eq_of_lt (by omega)
      have hmd : i % BLOCK_IN_FILE = i := Nat.mod_eq_of_lt (by omega)
      rw [writeBytesD_apply, overlay_apply, hfd, hmd]
      have hle : (chunkOf buffer n i).length ≤ BLOCK_SIZE := chunkOf_length_le buffer n i
      rw [hBS] at hle ⊢
      by_cases hf : f = 0
      · subst hf
        simp only [eq_self_iff_true, true_and, if_true]
        by_cases hji : q / 65536 = i
        · have hC1 : ¬(i + 1 ≤ q / 65536 ∧ q / 65536 < i + 1 + m
              ∧ q % 65536 < (chunkOf buffer n (q / 65536)).length) := by omega
          rw [if_neg hC1]
          by_cases hw : q % 65536 < (chunkOf buffer n i).length
          · have hC2 : i ≤ q / 65536 ∧ q / 65536 < i + (m + 1)
                ∧ q % 65536 < (chunkOf buffer n (q / 65536)).length := by
              refine ⟨by omega, by omega, ?_⟩
              rw [hji]
              exact hw
            rw [if_pos hC2]
            rw [if_pos (show i * 65536 ≤ q ∧ q < i * 65536 + (chunkOf buffer n i).length by omega)]
            rw [hji]
            have hsub : q - i * 65536 = q % 65536 := by omega
            rw [hsub]
          · have hC2 : ¬(i ≤ q / 65536 ∧ q / 65536 < i + (m + 1)
                ∧ q % 65536 < (chunkOf buffer n (q / 65536)).length) := by
              intro hC
              apply hw
              rw [← hji]
              exact hC.2.2
            rw [if_neg hC2]
            rw [if_neg (show ¬(i * 65536 ≤ q ∧ q < i * 65536 + (chunkOf buffer n i).length)
              by omega)]
        · have hW : ¬(i * 65536 ≤ q ∧ q < i * 65536 + (chunkOf buffer n i).length) := by
            intro hw2
            exact hji (by omega)
          rw [if_neg hW]
          have hiff : (i + 1 ≤ q / 65536 ∧ q / 65536 < i + 1 + m
                ∧ q % 65536 < (chunkOf buffer n (q / 65536)).length)
              ↔ (i ≤ q / 65536 ∧ q / 65536 < i + (m + 1)
                ∧ q % 65536 < (chunkOf buffer n (q / 65536)).length) := by
            constructor <;> intro hC <;> exact ⟨by omega, by omega, hC.2.2⟩
          rw [if_congr hiff rfl rfl]
      · have h1 : ¬(f = 0 ∧ i + 1 ≤ q / 65536 ∧ q / 65536 < i + 1 + m
            ∧ q % 65536 < (chunkOf buffer n (q / 65536)).length) := fun hC => hf hC.1
        have h2 : ¬(f = 0 ∧ i ≤ q / 65536 ∧ q / 65536 < i + (m + 1)
            ∧ q % 65536 < (chunkOf buffer n (q / 65536)).length) := fun hC => hf hC.1
        rw [if_neg h1, if_neg h2, if_neg hf]

/-- The written disk: with a fresh allocator the blocks are `0, ..., n - 1`
and the payload occupies the start of segment 0; every other byte reads 0. -/
theorem writeChunks_range (buffer : List Nat)
    (hn : buffer.length / BLOCK_SIZE + 1 ≤ BLOCK_IN_FILE) (f q : Nat) :
    writeChunks buffer (buffer.length / BLOCK_SIZE + 1)
        (List.range' 0 (buffer.length / BLOCK_SIZE + 1)) 0 emptyDisk f q
      = if f = 0 then buffer.getD q 0 else 0 := by
  have hBS : BLOCK_SIZE = 65536 := rfl
  rw [writeChunks_apply buffer (buffer.length / BLOCK_SIZE + 1)
    (buffer.length / BLOCK_SIZE + 1) 0 emptyDisk f q (by omega)]
  by_cases hf : f = 0
  · subst hf
    simp only [eq_self_iff_true, true_and, if_true, Nat.zero_le]
    by_cases hcov : q / BLOCK_SIZE < 0 + (buffer.length / BLOCK_SIZE + 1)
        ∧ q % BLOCK_SIZE < (chunkOf buffer (buffer.length / BLOCK_SIZE + 1) (q / BLOCK_SIZE)).length
    · rw [if_pos hcov]
      rw [chunkOf_getD buffer _ _ _ hcov.2]
      have hq : q / BLOCK_SIZE * BLOCK_SIZE + q % BLOCK_SIZE = q := by
        rw [hBS]
        omega
      rw [hq]
    · rw [if_neg hcov]
      have hq : buffer.length ≤ q := by
        rcases Nat.lt_or_ge (q / BLOCK_SIZE) (0 + (buffer.length / BLOCK_SIZE + 1)) with hlt | hge
        · have hrem : ¬(q % BLOCK_SIZE
              < (chunkOf buffer (buffer.length / BLOCK_SIZE + 1) (q / BLOCK_SIZE)).length) :=
            fun hcon => hcov ⟨hlt, hcon⟩
          rw [chunkOf_length] at hrem
          by_cases hj : q / BLOCK_SIZE = buffer.length / BLOCK_SIZE + 1 - 1
          · rw [chunkSizeOf, if_pos hj] at hrem
            rw [hBS] at hrem hj
            have hmin : min (buffer.length % 65536)
                (buffer.length - q / 65536 * 65536) = buffer.length % 65536 := by
              apply Nat.min_eq_left
              omega
            rw [hmin] at hrem
            omega
          · rw [chunkSizeOf, if_neg hj] at hrem
            rw [hBS] at hrem hj hlt
            have hmin : min 65536 (buffer.length - q / 65536 * 65536) = 65536 := by
              apply Nat.min_eq_left
              omega
            rw [hmin] at hrem
            omega
        · rw [hBS] at hge
          omega
      have hz : buffer.getD q 0 = 0 := by
        rw [List.getD_eq_getElem?_getD, List.getElem?_eq_none hq]
        rfl
      rw [hz]
      rfl
  · have h2 : ¬(f = 0 ∧ 0 ≤ q / BLOCK_SIZE
        ∧ q / BLOCK_SIZE < 0 + (buffer.length / BLOCK_SIZE + 1)
        ∧ q % BLOCK_SIZE
          < (chunkOf buffer (buffer.length / BLOCK_SIZE + 1) (q / BLOCK_SIZE)).length) :=
      fun hC => hf hC.1
    rw [if_neg h2, if_neg hf]
    rfl

/-- The net effect of the chunk-read loop of `loadImageBuffer` on indices
`i, ..., i + m - 1`: a byte of the output buffer is the corresponding disk
byte when it falls inside a read window, and is untouched otherwise. -/
theorem readChunks_apply (d : Disk) (size n : Nat) (m : Nat) :
    ∀ (i : Nat) (buf : Nat → Nat) (p : Nat), i + m ≤ BLOCK_IN_FILE →
    readChunks d size n (List.range' i m) i buf p =
      if i ≤ p / BLOCK_SIZE ∧ p / BLOCK_SIZE < i + m
          ∧ p % BLOCK_SIZE < chunkSizeOf size n (p / BLOCK_SIZE) then
        d 0 p
      else buf p := by
  have hBS : BLOCK_SIZE = 65536 := rfl
  induction m with
  | zero =>
      intro i buf p him
      have h0 : List.range' i 0 = [] := rfl
      rw [h0]
      simp only [readChunks]
      rw [hBS]
      refine (if_neg ?_).symm
      intro hC
      omega
  | succ m ih =>
      intro i buf p him
      rw [List.range'_succ]
      simp only [readChunks]
      rw [ih (i + 1) _ p (by omega)]
      have hfd : i / BLOCK_IN_FILE = 0 := Nat.div_eq_of_lt (by omega)
      have hmd : i % BLOCK_IN_FILE = i := Nat.mod_eq_of_lt (by omega)
      rw [overlay_apply, readChunk_length, hfd, hmd]
      have hle : chunkSizeOf size n i ≤ BLOCK_SIZE := chunkSizeOf_le size n i
      rw [hBS] at hle ⊢
      by_cases hji : p / 65536 = i
      · have hC1 : ¬(i + 1 ≤ p / 65536 ∧ p / 65536 < i + 1 + m
            ∧ p % 65536 < chunkSizeOf size n (p / 65536)) := by omega
        rw [if_neg hC1]
        by_cases hw : p % 65536 < chunkSizeOf size n i
        · have hC2 : i ≤ p / 65536 ∧ p / 65536 < i + (m + 1)
              ∧ p % 65536 < chunkSizeOf size n (p / 65536) := by
            refine ⟨by omega, by omega, ?_⟩
            rw [hji]
            exact hw
          rw [if_pos hC2]
          have hW : i * 65536 ≤ p ∧ p < i * 65536 + chunkSizeOf size n i := by omega
          rw [if_pos hW]
          rw [readChunk_getD d 0 (i * 65536) (chunkSizeOf size n i) (p - i * 65536)
            (by omega)]
          have hp : i * 65536 + (p - i * 65536) = p := by omega
          rw [hp]
        · have hC2 : ¬(i ≤ p / 65536 ∧ p / 65536 < i + (m + 1)
              ∧ p % 65536 < chunkSizeOf size n (p / 65536)) := by
            intro hC
            apply hw
            rw [← hji]
            exact hC.2.2
          rw [if_neg hC2]
          rw [if_neg (show ¬(i * 65536 ≤ p ∧ p < i * 65536 + chunkSizeOf size n i)
            by omega)]
      · have hW : ¬(i * 65536 ≤ p ∧ p < i * 65536 + chunkSizeOf size n i) := by
          intro hw2
          exact hji (by omega)
        rw [if_neg hW]
        have hiff : (i + 1 ≤ p / 65536 ∧ p / 65536 < i + 1 + m
              ∧ p % 65536 < chunkSizeOf size n (p / 65536))
            ↔ (i ≤ p / 65536 ∧ p / 65536 < i + (m + 1)
              ∧ p % 65536 < chunkSizeOf size n (p / 65536)) := by
          constructor <;> intro hC <;> exact ⟨by omega, by omega, hC.2.2⟩
        rw [if_congr hiff rfl rfl]

/-- Every byte position below the payload length falls inside a read
window. -/
theorem chunkSizeOf_cover (len p : Nat) (hp : p < len) :
    p % BLOCK_SIZE < chunkSizeOf len (len / BLOCK_SIZE + 1) (p / BLOCK_SIZE) := by
  have hBS : BLOCK_SIZE = 65536 := rfl
  rw [chunkSizeOf]
  by_cases hj : p / BLOCK_SIZE = len / BLOCK_SIZE + 1 - 1
  · rw [if_pos hj]
    rw [hBS] at hj ⊢
    omega
  · rw [if_neg hj]
    rw [hBS]
    omega

/-- Round trip of the block storage manager with a fresh allocator, for any
payload small enough to stay inside the first segment file. -/
theorem roundtrip (bytes : List Nat) (hn : bytes.length / BLOCK_SIZE + 1 ≤ BLOCK_IN_FILE) :
    loadImageBuffer (saveImageBuffer emptyDisk bytes stepToNextBlockIndex freshModel).1
      (saveImageBuffer emptyDisk bytes stepToNextBlockIndex freshModel).2.1
      bytes.length = bytes := by
  have hBS : BLOCK_SIZE = 65536 := rfl
  have halloc := allocBlocks_fresh (bytes.length / BLOCK_SIZE + 1) freshModel rfl
  rw [show freshModel.nextBlockIndex = 0 from rfl] at halloc
  simp only [saveImageBuffer, halloc, loadImageBuffer, List.length_range']
  apply List.ext_getElem
  · simp
  intro p h1 h2
  rw [List.getElem_map, List.getElem_range]
  rw [readChunks_apply (writeChunks bytes (bytes.length / BLOCK_SIZE + 1)
      (List.range' 0 (bytes.length / BLOCK_SIZE + 1)) 0 emptyDisk)
    bytes.length (bytes.length / BLOCK_SIZE + 1)
    (bytes.length / BLOCK_SIZE + 1) 0 _ p (by omega)]
  have hplen : p < bytes.length := by simpa using h2
  have hcov : (0 : Nat) ≤ p / BLOCK_SIZE ∧ p / BLOCK_SIZE < 0 + (bytes.length / BLOCK_SIZE + 1)
      ∧ p % BLOCK_SIZE < chunkSizeOf bytes.length (bytes.length / BLOCK_SIZE + 1)
        (p / BLOCK_SIZE) := by
    refine ⟨Nat.zero_le _, ?_, chunkSizeOf_cover bytes.length p hplen⟩
    rw [hBS]
    omega
  rw [if_pos hcov]
  rw [writeChunks_range bytes hn 0 p, if_pos rfl]
  exact List.getD_eq_getElem bytes 0 h2

/-- C3: for payloads of length 0, 1, B, B + 1 and 2B (B the block size),
writing through the block storage manager with a fresh allocator and
reading back the returned block list with the recorded total length
reproduces the payload exactly. -/
theorem c3_roundtrip (bytes : List Nat)
    (h : bytes.length = 0 ∨ bytes.length = 1 ∨ bytes.length = BLOCK_SIZE
      ∨ bytes.length = BLOCK_SIZE + 1 ∨ bytes.length = 2 * BLOCK_SIZE) :
    loadImageBuffer (saveImageBuffer emptyDisk bytes stepToNextBlockIndex freshModel).1
      (saveImageBuffer emptyDisk bytes stepToNextBlockIndex freshModel).2.1
      bytes.length = bytes := by
  apply roundtrip
  have hBS : BLOCK_SIZE = 65536 := rfl
  have hBF : BLOCK_IN_FILE = 1024 := rfl
  rw [hBS, hBF]
  rw [hBS] at h
  omega

/-- Witness for C3 at the one-byte payload. -/
theorem c3_roundtrip_witness :
    loadImageBuffer (saveImageBuffer emptyDisk [7] stepToNextBlockIndex freshModel).1
      (saveImageBuffer emptyDisk [7] stepToNextBlockIndex freshModel).2.1
      ([7] : List Nat).length = [7] :=
  c3_roundtrip [7] (Or.inr (Or.inl rfl))

/-- C2 chunk arithmetic: chunks strictly before the last one have length
exactly `BLOCK_SIZE`. -/
theorem chunkOf_length_mid (buffer : List Nat) (i : Nat)
    (h : i < buffer.length / BLOCK_SIZE) :
    (chunkOf buffer (buffer.length / BLOCK_SIZE + 1) i).length = BLOCK_SIZE := by
  have hBS : BLOCK_SIZE = 65536 := rfl
  rw [chunkOf_length]
  rw [chunkSizeOf, if_neg (by omega : ¬ i = buffer.length / BLOCK_SIZE + 1 - 1)]
  apply Nat.min_eq_left
  rw [hBS] at h ⊢
  omega

/-- C2 chunk arithmetic: the final chunk has length `len % BLOCK_SIZE`. -/
theorem chunkOf_length_last (buffer : List Nat) :
    (chunkOf buffer (buffer.length / BLOCK_SIZE + 1) (buffer.length / BLOCK_SIZE)).length
      = buffer.length % BLOCK_SIZE := by
  have hBS : BLOCK_SIZE = 65536 := rfl
  rw [chunkOf_length]
  rw [chunkSizeOf, if_pos (by simp : buffer.length / BLOCK_SIZE
    = buffer.length / BLOCK_SIZE + 1 - 1)]
  have h1 : buffer.length - buffer.length / BLOCK_SIZE * BLOCK_SIZE
      = buffer.length % BLOCK_SIZE := by
    rw [hBS]
    omega
  rw [h1, Nat.min_self]

/-- C2 (amended): every write splits the payload of length L into exactly
floor(L / B) + 1 chunks, allocating exactly that many block indices; every
chunk except the final one holds exactly B bytes and the final chunk holds
L mod B bytes (zero bytes when B divides L); in particular a 100000-byte
payload allocates exactly 2 blocks of 65536 and 34464 bytes. -/
theorem c2_amended {σ : Type} (d : Disk) (buffer : List Nat) (alloc : σ → Nat × σ) (s : σ) :
    ((saveImageBuffer d buffer alloc s).2.1).length = buffer.length / BLOCK_SIZE + 1
    ∧ (∀ i, i < buffer.length / BLOCK_SIZE →
        (chunkOf buffer (buffer.length / BLOCK_SIZE + 1) i).length = BLOCK_SIZE)
    ∧ (chunkOf buffer (buffer.length / BLOCK_SIZE + 1) (buffer.length / BLOCK_SIZE)).length
        = buffer.length % BLOCK_SIZE
    ∧ ((saveImageBuffer emptyDisk (List.replicate 100000 (0 : Nat)) stepToNextBlockIndex
        freshModel).2.1).length = 2
    ∧ (chunkOf (List.replicate 100000 (0 : Nat)) 2 0).length = 65536
    ∧ (chunkOf (List.replicate 100000 (0 : Nat)) 2 1).length = 34464 := by
  refine ⟨saveImageBuffer_blocks_length d buffer alloc s,
    fun i hi => chunkOf_length_mid buffer i hi, chunkOf_length_last buffer, ?_, ?_, ?_⟩
  · rw [saveImageBuffer_blocks_length, List.length_replicate]
    rfl
  · rw [chunkOf_length, List.length_replicate]
    rfl
  · rw [chunkOf_length, List.length_replicate]
    rfl

/-- Witness for C2 (amended), discharging the mid-chunk hypothesis at the
100000-byte payload. -/
theorem c2_amended_witness :
    (chunkOf (List.replicate 100000 (0 : Nat))
        ((List.replicate 100000 (0 : Nat)).length / BLOCK_SIZE + 1) 0).length = BLOCK_SIZE :=
  (c2_amended emptyDisk (List.replicate 100000 (0 : Nat)) stepToNextBlockIndex freshModel).2.1 0
    (by rw [List.length_replicate]; decide)

/-- C2 counterexample: a payload of exactly one block size is split into
2 chunks and allocates 2 block indices, although ceil(65536 / 65536) = 1;
the claimed chunk count ceil(L / B) is wrong whenever B divides L and
L is positive. -/
theorem c2_counterexample :
    ((saveImageBuffer emptyDisk (List.replicate 65536 (0 : Nat)) stepToNextBlockIndex
        freshModel).2.1).length = 2
    ∧ (65536 + 65536 - 1) / 65536 = 1 := by
  refine ⟨?_, rfl⟩
  rw [saveImageBuffer_blocks_length, List.length_replicate]
  rfl

/-- C7: the allocator serves the head of the free list first, leaving the
monotonic counter unchanged, and only when the free list is empty returns
the counter value and advances it. -/
theorem c7_allocator (m : SaveModel) :
    (∀ u us, m.unusedBlocks = u :: us →
        stepToNextBlockIndex m = (u, { m with unusedBlocks := us }))
    ∧ (m.unusedBlocks = [] →
        stepToNextBlockIndex m
          = (m.nextBlockIndex, { m with nextBlockIndex := m.nextBlockIndex + 1 })) := by
  constructor
  · intro u us h
    simp [stepToNextBlockIndex, h]
  · intro h
    simp [stepToNextBlockIndex, h]

/-- Witness for C7 at a concrete allocator state. -/
theorem c7_allocator_witness :
    stepToNextBlockIndex { freshModel with nextBlockIndex := 3, unusedBlocks := [5, 6] }
        = (5, { freshModel with nextBlockIndex := 3, unusedBlocks := [6] })
    ∧ stepToNextBlockIndex { freshModel with nextBlockIndex := 3 }
        = (3, { freshModel with nextBlockIndex := 4 }) :=
  ⟨(c7_allocator _).1 5 [6] rfl, (c7_allocator _).2 rfl⟩

/-! ## Facade operation evaluations -/

/-- C4: evaluation at the failing input.  The state holds illustration 1
whose sub-item payload occupies block indices 5 and 6 and the next block
index is 7.  Deleting the illustration succeeds (count 1) but leaves the
free list empty, so a subsequent 2-block payload allocates indices 7 and 8
instead of reusing 5 and 6: block reclamation is missing (the source
carries a TODO for it). -/
theorem c4_eval :
    ((deleteIllustration model4 emptyCache [Sum.inr 1]).1).unusedBlocks = []
    ∧ (deleteIllustration model4 emptyCache [Sum.inr 1]).2.2 = 1
    ∧ (allocBlocks stepToNextBlockIndex 2 (deleteIllustration model4 emptyCache [Sum.inr 1]).1).1
        = [7, 8]
    ∧ ((model4.blocks 2).getD fun _ => none) ImageSpecification.Origin
        = some { blocks := some [5, 6], size := 100000 } := by
  decide

/-- C6: evaluation at the failing input.  With an empty cache and a block
map holding a record for image 1 under the origin variant only, requesting
the default (exhibition) variant throws a TypeError (the source
destructures `blocks[imageId][spec]` before its `if(!blocks)` guard); a
wholly absent block-map entry does yield the not-found result. -/
theorem c6_eval :
    (loadImageURL emptyDisk [] model6 emptyCache 1 none).1 = LoadResult.threw
    ∧ (loadImageURL emptyDisk [] freshModel emptyCache 1 none).1 = LoadResult.callbacked none
    ∧ ((model6.blocks 1).getD fun _ => none) ImageSpecification.Origin
        = some { blocks := some [5], size := 3 }
    ∧ ((model6.blocks 1).getD fun _ => none) ImageSpecification.Exhibition = none := by
  decide

/-- C8: evaluation at the failing input.  The cache holds the decoded
origin payload of sub-item image 2 of illustration 1.  Deleting
illustration 1 succeeds, but the source calls `imageURLCache.remove` with
the illustration id 1 while the cache is keyed by image ids, so the stale
record for image 2 survives deletion. -/
theorem c8_eval :
    (deleteIllustration model4 cache8 [Sum.inr 1]).2.1 ImageSpecification.Origin 2 = some [9]
    ∧ (deleteIllustration model4 cache8 [Sum.inr 1]).2.2 = 1
    ∧ model4.illustrations
        = [{ id := some 1, tags := [], images := [{ id := some 2, subTags := [] }] }] := by
  decide

/-- C9: `createIllustration` treats an entry or sub-item id equal to 0
exactly like an absent id: the caller-supplied 0 is overwritten with the
next value of the corresponding id counter. -/
theorem c9_zero_id (m : SaveModel) (il : Illustration) (im : Image) (rest : List Illustration) :
    createIllustration m ({ il with id := some 0 } :: rest)
      = createIllustration m ({ il with id := none } :: rest)
    ∧ (createOne m { il with id := some 0 }).2.id = some m.nextIllustrationId
    ∧ assignImages m [{ im with id := some 0 }] = assignImages m [{ im with id := none }]
    ∧ (assignImages m [{ im with id := some 0 }]).1 = [{ im with id := some m.nextImageId }] := by
  refine ⟨?_, ?_, ?_, ?_⟩
  · simp [createIllustration, createOne, isFalsyId]
  · simp [createOne, isFalsyId]
  · simp [assignImages, isFalsyId]
  · simp [assignImages, isFalsyId]

end Hedge
